import Mathlib

set_option maxHeartbeats 1000000

/-!
Verification development for the single-email triage agent
(`src/email_agent.py`).  Python strings are modelled as `List Char`;
the reply-selection logic of `main_agent_workflow`, the response-text
parsing of `_run_ai_agent`, and the orchestration of side effects are
embedded as executable Lean functions below, translated clause by
clause from the source.
-/

namespace EmailAgent

/-- ASCII whitespace stripped by Python `str.strip()`. -/
def isPySpace (c : Char) : Bool :=
  c == ' ' || c == '\t' || c == '\n' || c == '\r' || c == '\x0b' || c == '\x0c'

/-- Left part of Python `str.strip()`. -/
def lstrip (l : List Char) : List Char := l.dropWhile isPySpace

/-- Right part of Python `str.strip()`. -/
def rstrip (l : List Char) : List Char := (l.reverse.dropWhile isPySpace).reverse

/-- Python `str.strip()`: trim whitespace from both ends. -/
def pyStrip (l : List Char) : List Char := rstrip (lstrip l)

/-- Scan to just past the first `'>'`; `none` if there is no `'>'`.
Models the end of a `<[^>]+>` regex match. -/
def skipToGt : List Char → Option (List Char)
  | [] => none
  | c :: rest => if c = '>' then some rest else skipToGt rest

/-- Given the characters after a `'<'`, try to complete a `<[^>]+>` match:
at least one non-`'>'` character followed by a `'>'`.  Returns the
characters after the match. -/
def tryTag : List Char → Option (List Char)
  | [] => none
  | c :: rest => if c = '>' then none else skipToGt rest

/-- Fuelled worker for `removeTags` (fuel keeps the recursion structural,
so that concrete inputs evaluate by `decide`/`rfl`). -/
def removeTagsF : Nat → List Char → List Char
  | _, [] => []
  | 0, l => l
  | fuel+1, c :: rest =>
    if c = '<' then
      match tryTag rest with
      | some r2 => removeTagsF fuel r2
      | none => c :: removeTagsF fuel rest
    else c :: removeTagsF fuel rest

/-- Python `re.sub(r"<[^>]+>", "", s)`: remove every leftmost,
non-overlapping match of `<[^>]+>`. -/
def removeTags (l : List Char) : List Char := removeTagsF l.length l

/-- The sanitation step of `main_agent_workflow` (line 252):
`re.sub(r"<[^>]+>", "", reply).strip()`. -/
def sanitize (l : List Char) : List Char := pyStrip (removeTags l)

/-- `canTag l` holds when a `<[^>]+>` match could complete right after a
`'<'` placed in front of `l`. -/
def canTag (l : List Char) : Bool := (tryTag l).isSome

/-- Boolean scanner: does the list contain a substring matching `<[^>]+>`
(a markup-tag-like substring)?  See `hasTag_iff` for the semantic reading. -/
def hasTag : List Char → Bool
  | [] => false
  | c :: rest => if c = '<' then canTag rest || hasTag rest else hasTag rest

/-- The classification record as consumed by `main_agent_workflow`
(a decoded JSON object; each field may be absent, mirroring the
defensive `ai_output.get(...)` calls at lines 242-250). -/
structure AiOutput where
  is_technical : Option Bool
  simple_reply_draft : Option (List Char)
  non_technical_reply_draft : Option (List Char)
  request_meeting : Option Bool
  meeting_suggestion_draft : Option (List Char)

/-- The literal `SAFE_DEFAULT_REPLY` string of `main_agent_workflow`. -/
def SAFE_DEFAULT_REPLY : List Char :=
  ("Thank you for reaching out. I will review your message and respond shortly.\n\nBest regards,\nEMAYAN R M").toList

/-- The literal prefix prepended by the greeting-normalization step. -/
def helloPrefix : List Char := "Hello,\n\n".toList

/-- The greeting tokens of `reply.lower().startswith(("hello", "hi", "dear", "thank you"))`. -/
def greetings : List (List Char) :=
  ["hello".toList, "hi".toList, "dear".toList, "thank you".toList]

/-- `reply.lower().startswith(("hello", "hi", "dear", "thank you"))` (line 254). -/
def greetingOk (l : List Char) : Bool :=
  greetings.any (fun g => g.isPrefixOf (l.map Char.toLower))

/-- Lines 254-255: prepend `"Hello,\n\n"` unless the text already starts
(case-insensitively) with a greeting token. -/
def normalizeGreeting (l : List Char) : List Char :=
  if greetingOk l then l else helloPrefix ++ l

/-- Lines 239-250: pick the raw reply text.  `none` stands for a falsy
`ai_output`; a present record is read with `.get(field, default)`,
so only a *missing* field falls back to `SAFE_DEFAULT_REPLY`. -/
def chooseReply (ai : Option AiOutput) : List Char :=
  match ai with
  | none => SAFE_DEFAULT_REPLY
  | some o =>
    if o.is_technical.getD false && o.request_meeting.getD false then
      o.meeting_suggestion_draft.getD SAFE_DEFAULT_REPLY
    else if o.is_technical.getD false then
      o.simple_reply_draft.getD SAFE_DEFAULT_REPLY
    else
      o.non_technical_reply_draft.getD SAFE_DEFAULT_REPLY

/-- The draft field selected by the decision policy (same branch structure
as `chooseReply`, before the `.get` default is applied). -/
def chosenField (o : AiOutput) : Option (List Char) :=
  if o.is_technical.getD false && o.request_meeting.getD false then
    o.meeting_suggestion_draft
  else if o.is_technical.getD false then
    o.simple_reply_draft
  else
    o.non_technical_reply_draft

/-- The full reply-selection pipeline of `main_agent_workflow`
(lines 239-255): choose a draft, sanitize it, normalize the greeting. -/
def select_reply (ai : Option AiOutput) : List Char :=
  normalizeGreeting (sanitize (chooseReply ai))

/-- Observable side effects of one workflow run. -/
inductive Effect where
  | classify (from_email subject body : List Char)
  | send (to_email subject body : List Char)

/-- `main_agent_workflow` as a function from the fetch result and the
classifier outcome to the list of side effects it performs (lines 226-257).
`fetched = none` models the `(None, None, None)` return of
`_fetch_latest_unread_email`; a fetched triple carries the extracted
sender, subject and body.  `if not from_email: return` also fires on an
empty sender string. -/
def main_agent_workflow (fetched : Option (List Char × List Char × List Char))
    (ai : Option AiOutput) : List Effect :=
  match fetched with
  | none => []
  | some (from_email, subject, body) =>
    if from_email = [] then []
    else
      [Effect.classify from_email subject body,
       Effect.send from_email (("Re: ").toList ++ subject) (select_reply ai)]

/-- Number of send attempts in an effect list. -/
def countSends (es : List Effect) : Nat :=
  es.countP (fun e => match e with | Effect.send _ _ _ => true | _ => false)

/-- Number of classification calls in an effect list. -/
def countClassifies (es : List Effect) : Nat :=
  es.countP (fun e => match e with | Effect.classify _ _ _ => true | _ => false)

/-- Decoded JSON values (`json.loads` results).  Numeric literals are kept
verbatim: their numeric value plays no role anywhere downstream. -/
inductive JsonValue where
  | null
  | bool (b : Bool)
  | num (lit : List Char)
  | str (s : List Char)
  | arr (items : List JsonValue)
  | obj (fields : List (List Char × JsonValue))

/-- JSON inter-token whitespace. -/
def isJsonWs (c : Char) : Bool := c == ' ' || c == '\t' || c == '\n' || c == '\r'

/-- Skip JSON whitespace. -/
def skipWs (s : List Char) : List Char := s.dropWhile isJsonWs

/-- Hexadecimal digit value. -/
def hexVal (c : Char) : Option Nat :=
  if '0' ≤ c ∧ c ≤ '9' then some (c.toNat - '0'.toNat)
  else if 'a' ≤ c ∧ c ≤ 'f' then some (c.toNat - 'a'.toNat + 10)
  else if 'A' ≤ c ∧ c ≤ 'F' then some (c.toNat - 'A'.toNat + 10)
  else none

/-- Single-character JSON string escapes. -/
def escChar (e : Char) : Option Char :=
  if e = '"' then some '"'
  else if e = '\\' then some '\\'
  else if e = '/' then some '/'
  else if e = 'b' then some (Char.ofNat 8)
  else if e = 'f' then some (Char.ofNat 12)
  else if e = 'n' then some '\n'
  else if e = 'r' then some '\r'
  else if e = 't' then some '\t'
  else none

/-- Body of a JSON string after the opening quote: returns the decoded
content and the input after the closing quote.  Raw control characters
are rejected, as in strict-mode `json.loads`. -/
def parseStringBody : List Char → Option (List Char × List Char)
  | [] => none
  | c :: rest =>
    if c = '"' then some ([], rest)
    else if c = '\\' then
      match rest with
      | [] => none
      | e :: r =>
        if e = 'u' then
          match r with
          | h1 :: h2 :: h3 :: h4 :: r2 =>
            match hexVal h1, hexVal h2, hexVal h3, hexVal h4 with
            | some a, some b, some c2, some d =>
              (fun pr => (Char.ofNat (((a * 16 + b) * 16 + c2) * 16 + d) :: pr.1, pr.2)) <$>
                parseStringBody r2
            | _, _, _, _ => none
          | _ => none
        else
          match escChar e with
          | some ec => (fun pr => (ec :: pr.1, pr.2)) <$> parseStringBody r
          | none => none
    else if c.toNat < 32 then none
    else (fun pr => (c :: pr.1, pr.2)) <$> parseStringBody rest

/-- Split a leading run of decimal digits. -/
def digitSpan (s : List Char) : List Char × List Char :=
  (s.takeWhile Char.isDigit, s.dropWhile Char.isDigit)

/-- JSON integer part: `0` or a nonzero digit followed by digits. -/
def parseIntPart : List Char → Option (List Char × List Char)
  | [] => none
  | c :: rest =>
    if c = '0' then some (['0'], rest)
    else if c.isDigit then
      some (c :: (digitSpan rest).1, (digitSpan rest).2)
    else none

/-- Optional JSON fraction part. -/
def parseFracPart (s : List Char) : Option (List Char × List Char) :=
  match s with
  | '.' :: rest =>
    match digitSpan rest with
    | ([], _) => none
    | (d, r) => some ('.' :: d, r)
  | _ => some ([], s)

/-- Optional JSON exponent part. -/
def parseExpPart (s : List Char) : Option (List Char × List Char) :=
  match s with
  | [] => some ([], [])
  | c :: rest =>
    if c = 'e' ∨ c = 'E' then
      match rest with
      | s1 :: r =>
        if s1 = '+' ∨ s1 = '-' then
          match digitSpan r with
          | ([], _) => none
          | (d, r2) => some (c :: s1 :: d, r2)
        else
          match digitSpan rest with
          | ([], _) => none
          | (d, r2) => some (c :: d, r2)
      | [] => none
    else some ([], c :: rest)

/-- JSON number literal (without sign): integer, fraction, exponent. -/
def parseNumberCore (s : List Char) : Option (List Char × List Char) :=
  match parseIntPart s with
  | none => none
  | some (ip, s2) =>
    match parseFracPart s2 with
    | none => none
    | some (fp, s3) =>
      match parseExpPart s3 with
      | none => none
      | some (ep, s4) => some (ip ++ fp ++ ep, s4)

/-- Parser requests: a JSON value, the members of an object after `{`,
or the items of an array after `[` (accumulators in reverse order). -/
inductive PReq where
  | val (s : List Char)
  | objMs (s : List Char) (acc : List (List Char × JsonValue))
  | arrIs (s : List Char) (acc : List JsonValue)

/-- Fuelled recursive-descent JSON parser (the model of `json.loads`,
including the `NaN`/`Infinity`/`-Infinity` extras Python accepts).
Structural in the fuel so that concrete inputs evaluate by `rfl`. -/
def parseF : Nat → PReq → Option (JsonValue × List Char)
  | 0, _ => none
  | fuel+1, PReq.val s =>
    match skipWs s with
    | [] => none
    | c :: rest =>
      if c = '{' then
        match skipWs rest with
        | '}' :: r => some (JsonValue.obj [], r)
        | _ => parseF fuel (PReq.objMs rest [])
      else if c = '[' then
        match skipWs rest with
        | ']' :: r => some (JsonValue.arr [], r)
        | _ => parseF fuel (PReq.arrIs rest [])
      else if c = '"' then
        (fun pr => (JsonValue.str pr.1, pr.2)) <$> parseStringBody rest
      else if c = 't' then
        match rest with
        | 'r' :: 'u' :: 'e' :: r => some (JsonValue.bool true, r)
        | _ => none
      else if c = 'f' then
        match rest with
        | 'a' :: 'l' :: 's' :: 'e' :: r => some (JsonValue.bool false, r)
        | _ => none
      else if c = 'n' then
        match rest with
        | 'u' :: 'l' :: 'l' :: r => some (JsonValue.null, r)
        | _ => none
      else if c = 'N' then
        match rest with
        | 'a' :: 'N' :: r => some (JsonValue.num ['N', 'a', 'N'], r)
        | _ => none
      else if c = 'I' then
        match rest with
        | 'n' :: 'f' :: 'i' :: 'n' :: 'i' :: 't' :: 'y' :: r =>
          some (JsonValue.num ['I', 'n', 'f'], r)
        | _ => none
      else if c = '-' then
        match rest with
        | 'I' :: 'n' :: 'f' :: 'i' :: 'n' :: 'i' :: 't' :: 'y' :: r =>
          some (JsonValue.num ['-', 'I', 'n', 'f'], r)
        | _ =>
          match parseNumberCore rest with
          | some (lit, r) => some (JsonValue.num ('-' :: lit), r)
          | none => none
      else
        match parseNumberCore (c :: rest) with
        | some (lit, r) => some (JsonValue.num lit, r)
        | none => none
  | fuel+1, PReq.objMs s acc =>
    match skipWs s with
    | '"' :: r =>
      match parseStringBody r with
      | some (key, r2) =>
        match skipWs r2 with
        | ':' :: r3 =>
          match parseF fuel (PReq.val r3) with
          | some (v, r4) =>
            match skipWs r4 with
            | ',' :: r5 => parseF fuel (PReq.objMs r5 ((key, v) :: acc))
            | '}' :: r5 => some (JsonValue.obj ((key, v) :: acc).reverse, r5)
            | _ => none
          | none => none
        | _ => none
      | none => none
    | _ => none
  | fuel+1, PReq.arrIs s acc =>
    match parseF fuel (PReq.val s) with
    | some (v, r) =>
      match skipWs r with
      | ',' :: r2 => parseF fuel (PReq.arrIs r2 (v :: acc))
      | ']' :: r2 => some (JsonValue.arr (v :: acc).reverse, r2)
      | _ => none
    | none => none

/-- `json.loads`: parse one JSON document, allowing surrounding whitespace
and rejecting any other trailing data. -/
def jsonParse (s : List Char) : Option JsonValue :=
  match parseF (2 * s.length + 4) (PReq.val s) with
  | some (v, rest) => if (skipWs rest).isEmpty then some v else none
  | none => none

/-- Not an opening brace. -/
def notLb (c : Char) : Bool := !(c == '{')

/-- Not a closing brace. -/
def notRb (c : Char) : Bool := !(c == '}')

/-- `re.search(r"\x7b.*\x7d", raw, re.DOTALL)` (line 212): the substring
from the first opening brace to the last closing brace after it, if any.
See `extractBraced_eq_some_iff`. -/
def extractBraced (m : List Char) : Option (List Char) :=
  let t2 := ((m.dropWhile notLb).reverse.dropWhile notRb).reverse
  if t2.isEmpty then none else some t2

/-- The response-text processing of `_run_ai_agent` (lines 211-220):
strip the text, extract the braced substring, decode it with `json.loads`;
any failure yields `None`.  The transport call itself is outside the
model: the input is the AI service's response text. -/
def _run_ai_agent (raw : List Char) : Option JsonValue :=
  (extractBraced (pyStrip raw)).bind jsonParse

/-- Does a decoded JSON value have all five fields required by
`RESPONSE_SCHEMA_JSON`? -/
def hasRequired (v : JsonValue) : Bool :=
  match v with
  | JsonValue.obj fs =>
    (fs.any (fun kv => kv.1 == ("is_technical").toList)) &&
    (fs.any (fun kv => kv.1 == ("simple_reply_draft").toList)) &&
    (fs.any (fun kv => kv.1 == ("non_technical_reply_draft").toList)) &&
    (fs.any (fun kv => kv.1 == ("request_meeting").toList)) &&
    (fs.any (fun kv => kv.1 == ("meeting_suggestion_draft").toList))
  | _ => false

/-- `true` iff the classifier returns a decoded record that is missing at
least one required field. -/
def returnsPartialOn (raw : List Char) : Bool :=
  match _run_ai_agent raw with
  | some j => !(hasRequired j)
  | none => false

/-- Modelled from the spec (section 4.2 parsing contract): extract the
*first well-formed (balanced) JSON object substring* of the text,
tolerating commentary before and after, and decode it; `none` when no
such substring exists.  Used to compare the spec's description with the
code's first-brace-to-last-brace extraction. -/
def specParse : List Char → Option JsonValue
  | [] => none
  | c :: rest =>
    if c = '{' then
      match parseF (2 * (c :: rest).length + 4) (PReq.val (c :: rest)) with
      | some (v, _) => some v
      | none => specParse rest
    else specParse rest

theorem skipToGt_length : ∀ {l r : List Char}, skipToGt l = some r → r.length < l.length := by
  intro l
  induction l with
  | nil => intro r h; simp [skipToGt] at h
  | cons c rest ih =>
    intro r h
    by_cases hc : c = '>'
    · rw [skipToGt, if_pos hc] at h
      cases h
      simp
    · rw [skipToGt, if_neg hc] at h
      exact Nat.lt_trans (ih h) (Nat.lt_succ_self _)

theorem tryTag_length : ∀ {l r : List Char}, tryTag l = some r → r.length < l.length := by
  intro l r h
  cases l with
  | nil => simp [tryTag] at h
  | cons c rest =>
    by_cases hc : c = '>'
    · rw [tryTag, if_pos hc] at h; cases h
    · rw [tryTag, if_neg hc] at h
      exact Nat.lt_trans (skipToGt_length h) (Nat.lt_succ_self _)

theorem removeTagsF_nil (fuel : Nat) : removeTagsF fuel [] = [] := by
  cases fuel <;> rfl

theorem removeTagsF_cons_ne (fuel : Nat) (c : Char) (rest : List Char) (h : ¬ c = '<') :
    removeTagsF (fuel+1) (c :: rest) = c :: removeTagsF fuel rest := by
  rw [removeTagsF, if_neg h]

theorem removeTagsF_cons_some (fuel : Nat) (rest r2 : List Char) (h : tryTag rest = some r2) :
    removeTagsF (fuel+1) ('<' :: rest) = removeTagsF fuel r2 := by
  rw [removeTagsF, if_pos rfl, h]

theorem removeTagsF_cons_none (fuel : Nat) (rest : List Char) (h : tryTag rest = none) :
    removeTagsF (fuel+1) ('<' :: rest) = '<' :: removeTagsF fuel rest := by
  rw [removeTagsF, if_pos rfl, h]

theorem removeTagsF_congr : ∀ (fuel : Nat) (l : List Char), l.length ≤ fuel →
    removeTagsF fuel l = removeTagsF l.length l := by
  intro fuel
  induction fuel using Nat.strong_induction_on with
  | _ fuel ih =>
    intro l hl
    cases l with
    | nil => rw [removeTagsF_nil, removeTagsF_nil]
    | cons c rest =>
      cases fuel with
      | zero => simp at hl
      | succ k =>
        have hrest : rest.length ≤ k := Nat.le_of_succ_le_succ hl
        show removeTagsF (k+1) (c :: rest) = removeTagsF (rest.length + 1) (c :: rest)
        by_cases hc : c = '<'
        · subst hc
          cases htt : tryTag rest with
          | some r2 =>
            have hr2 : r2.length < rest.length := tryTag_length htt
            rw [removeTagsF_cons_some k rest r2 htt, removeTagsF_cons_some rest.length rest r2 htt]
            have e1 : removeTagsF k r2 = removeTagsF r2.length r2 :=
              ih k (Nat.lt_succ_self _) r2 (Nat.le_of_lt (Nat.lt_of_lt_of_le hr2 hrest))
            have e2 : removeTagsF rest.length r2 = removeTagsF r2.length r2 :=
              ih rest.length (Nat.lt_succ_of_le hrest) r2 (Nat.le_of_lt hr2)
            rw [e1, e2]
          | none =>
            rw [removeTagsF_cons_none k rest htt, removeTagsF_cons_none rest.length rest htt]
            rw [ih k (Nat.lt_succ_self _) rest hrest]
        · rw [removeTagsF_cons_ne k c rest hc, removeTagsF_cons_ne rest.length c rest hc]
          rw [ih k (Nat.lt_succ_self _) rest hrest]

theorem removeTags_nil : removeTags [] = [] := rfl

theorem removeTags_cons_ne (c : Char) (rest : List Char) (h : ¬ c = '<') :
    removeTags (c :: rest) = c :: removeTags rest := by
  show removeTagsF (rest.length + 1) (c :: rest) = _
  rw [removeTagsF_cons_ne rest.length c rest h]
  rfl

theorem removeTags_cons_some (rest r2 : List Char) (h : tryTag rest = some r2) :
    removeTags ('<' :: rest) = removeTags r2 := by
  show removeTagsF (rest.length + 1) ('<' :: rest) = _
  rw [removeTagsF_cons_some rest.length rest r2 h]
  exact removeTagsF_congr rest.length r2 (Nat.le_of_lt (tryTag_length h))

theorem removeTags_cons_none (rest : List Char) (h : tryTag rest = none) :
    removeTags ('<' :: rest) = '<' :: removeTags rest := by
  show removeTagsF (rest.length + 1) ('<' :: rest) = _
  rw [removeTagsF_cons_none rest.length rest h]
  rfl

theorem hasTag_nil : hasTag [] = false := rfl

theorem hasTag_cons_lt (rest : List Char) :
    hasTag ('<' :: rest) = (canTag rest || hasTag rest) := by
  rw [hasTag, if_pos rfl]

theorem hasTag_cons_ne (c : Char) (rest : List Char) (h : ¬ c = '<') :
    hasTag (c :: rest) = hasTag rest := by
  rw [hasTag, if_neg h]

theorem skipToGt_eq_none : ∀ {l : List Char}, skipToGt l = none ↔ '>' ∉ l := by
  intro l
  induction l with
  | nil => simp [skipToGt]
  | cons c rest ih =>
    by_cases hc : c = '>'
    · subst hc
      rw [skipToGt, if_pos rfl]
      simp
    · rw [skipToGt, if_neg hc]
      rw [ih]
      constructor
      · intro h m
        rcases List.mem_cons.mp m with e | m2
        · exact hc e.symm
        · exact h m2
      · intro h m
        exact h (List.mem_cons_of_mem c m)

theorem noGt_tryTag {l : List Char} (h : '>' ∉ l) : tryTag l = none := by
  cases l with
  | nil => rfl
  | cons c rest =>
    have hc : ¬ c = '>' := fun e => h (e ▸ List.mem_cons_self c rest)
    have hr : '>' ∉ rest := fun m => h (List.mem_cons_of_mem c m)
    rw [tryTag, if_neg hc]
    exact skipToGt_eq_none.mpr hr

theorem noGt_removeTags : ∀ {l : List Char}, '>' ∉ l → removeTags l = l := by
  intro l
  induction l with
  | nil => intro _; rfl
  | cons c rest ih =>
    intro h
    have hr : '>' ∉ rest := fun m => h (List.mem_cons_of_mem c m)
    by_cases hc : c = '<'
    · subst hc
      rw [removeTags_cons_none rest (noGt_tryTag hr), ih hr]
    · rw [removeTags_cons_ne c rest hc, ih hr]

theorem tryTag_removeTags_none {rest : List Char} (h : tryTag rest = none) :
    tryTag (removeTags rest) = none := by
  cases rest with
  | nil => rfl
  | cons d r2 =>
    by_cases hd : d = '>'
    · subst hd
      have hne : ¬ ('>' : Char) = '<' := by decide
      rw [removeTags_cons_ne '>' r2 hne]
      rw [tryTag, if_pos rfl]
    · rw [tryTag, if_neg hd] at h
      have hr2 : '>' ∉ r2 := skipToGt_eq_none.mp h
      have hfull : '>' ∉ (d :: r2) := by
        intro m
        rcases List.mem_cons.mp m with e | m2
        · exact hd e.symm
        · exact hr2 m2
      rw [noGt_removeTags hfull]
      rw [tryTag, if_neg hd]
      exact h

theorem canTag_removeTags_none {rest : List Char} (h : tryTag rest = none) :
    canTag (removeTags rest) = false := by
  rw [canTag, tryTag_removeTags_none h]
  rfl

theorem hasTag_removeTags_aux : ∀ (n : Nat) (l : List Char), l.length ≤ n →
    hasTag (removeTags l) = false := by
  intro n
  induction n with
  | zero =>
    intro l hl
    have : l = [] := List.length_eq_zero.mp (Nat.le_zero.mp hl)
    subst this
    rfl
  | succ n ih =>
    intro l hl
    cases l with
    | nil => rfl
    | cons c rest =>
      have hrest : rest.length ≤ n := Nat.le_of_succ_le_succ hl
      by_cases hc : c = '<'
      · subst hc
        cases htt : tryTag rest with
        | some r2 =>
          rw [removeTags_cons_some rest r2 htt]
          exact ih r2 (Nat.le_of_lt (Nat.lt_of_lt_of_le (tryTag_length htt) hrest))
        | none =>
          rw [removeTags_cons_none rest htt, hasTag_cons_lt]
          rw [canTag_removeTags_none htt, ih rest hrest]
          rfl
      · rw [removeTags_cons_ne c rest hc, hasTag_cons_ne c _ hc]
        exact ih rest hrest

/-- The output of the tag-stripping pass never contains a `<[^>]+>` match. -/
theorem hasTag_removeTags (l : List Char) : hasTag (removeTags l) = false :=
  hasTag_removeTags_aux l.length l (Nat.le_refl _)

theorem skipToGt_append {l r b : List Char} (h : skipToGt l = some r) :
    skipToGt (l ++ b) = some (r ++ b) := by
  induction l with
  | nil => simp [skipToGt] at h
  | cons c rest ih =>
    by_cases hc : c = '>'
    · rw [skipToGt, if_pos hc] at h
      cases h
      rw [List.cons_append, skipToGt, if_pos hc]
    · rw [skipToGt, if_neg hc] at h
      rw [List.cons_append, skipToGt, if_neg hc]
      exact ih h

theorem canTag_append {l b : List Char} (h : canTag l = true) :
    canTag (l ++ b) = true := by
  rw [canTag] at h ⊢
  cases l with
  | nil => simp [tryTag] at h
  | cons c rest =>
    by_cases hc : c = '>'
    · rw [tryTag, if_pos hc] at h
      simp at h
    · rw [tryTag, if_neg hc] at h
      rw [List.cons_append, tryTag, if_neg hc]
      cases hs : skipToGt rest with
      | none => rw [hs] at h; simp at h
      | some r => rw [skipToGt_append hs]; rfl

theorem hasTag_append_right {a l : List Char} (h : hasTag (a ++ l) = false) :
    hasTag l = false := by
  induction a with
  | nil => exact h
  | cons c a' ih =>
    rw [List.cons_append] at h
    by_cases hc : c = '<'
    · subst hc
      rw [hasTag_cons_lt] at h
      exact ih (by
        cases h2 : hasTag (a' ++ l) with
        | false => rfl
        | true => rw [h2] at h; simp at h)
    · rw [hasTag_cons_ne c _ hc] at h
      exact ih h

theorem hasTag_append_left {l b : List Char} (h : hasTag (l ++ b) = false) :
    hasTag l = false := by
  induction l with
  | nil => rfl
  | cons c l' ih =>
    rw [List.cons_append] at h
    by_cases hc : c = '<'
    · subst hc
      rw [hasTag_cons_lt] at h ⊢
      have h1 : canTag (l' ++ b) = false := by
        cases h2 : canTag (l' ++ b) with
        | false => rfl
        | true => rw [h2] at h; simp at h
      have h2 : hasTag (l' ++ b) = false := by
        cases h3 : hasTag (l' ++ b) with
        | false => rfl
        | true => rw [h3] at h; simp at h
      have hc1 : canTag l' = false := by
        cases h4 : canTag l' with
        | false => rfl
        | true => rw [canTag_append h4] at h1; cases h1
      rw [hc1, ih h2]
      rfl
    · rw [hasTag_cons_ne c _ hc] at h
      rw [hasTag_cons_ne c _ hc]
      exact ih h

theorem hasTag_infix {a m b : List Char} (h : hasTag (a ++ (m ++ b)) = false) :
    hasTag m = false :=
  hasTag_append_left (hasTag_append_right h)

theorem removeTags_of_hasTag_false : ∀ {l : List Char}, hasTag l = false → removeTags l = l := by
  intro l
  induction l with
  | nil => intro _; rfl
  | cons c rest ih =>
    intro h
    by_cases hc : c = '<'
    · subst hc
      rw [hasTag_cons_lt] at h
      have h1 : canTag rest = false := by
        cases h2 : canTag rest with
        | false => rfl
        | true => rw [h2] at h; simp at h
      have h2 : hasTag rest = false := by
        cases h3 : hasTag rest with
        | false => rfl
        | true => rw [h3] at h; simp at h
      have h3 : tryTag rest = none := by
        rw [canTag] at h1
        exact Option.not_isSome_iff_eq_none.mp (by rw [h1]; intro hh; exact Bool.noConfusion hh)
      rw [removeTags_cons_none rest h3, ih h2]
    · rw [hasTag_cons_ne c rest hc] at h
      rw [removeTags_cons_ne c rest hc, ih h]

/-- Every list splits as junk ++ `pyStrip` of itself ++ junk. -/
theorem pyStrip_decomp (l : List Char) : ∃ a b, l = a ++ (pyStrip l ++ b) := by
  refine ⟨l.takeWhile isPySpace, ((lstrip l).reverse.takeWhile isPySpace).reverse, ?_⟩
  have h1 : l = l.takeWhile isPySpace ++ lstrip l :=
    (List.takeWhile_append_dropWhile isPySpace l).symm
  have h2 : lstrip l = pyStrip l ++ ((lstrip l).reverse.takeWhile isPySpace).reverse := by
    have h3 : (lstrip l).reverse =
        (lstrip l).reverse.takeWhile isPySpace ++ (lstrip l).reverse.dropWhile isPySpace :=
      (List.takeWhile_append_dropWhile isPySpace (lstrip l).reverse).symm
    calc lstrip l = (lstrip l).reverse.reverse := (List.reverse_reverse _).symm
      _ = ((lstrip l).reverse.takeWhile isPySpace ++
            (lstrip l).reverse.dropWhile isPySpace).reverse := by rw [← h3]
      _ = ((lstrip l).reverse.dropWhile isPySpace).reverse ++
            ((lstrip l).reverse.takeWhile isPySpace).reverse := by rw [List.reverse_append]
      _ = pyStrip l ++ ((lstrip l).reverse.takeWhile isPySpace).reverse := rfl
  calc l = l.takeWhile isPySpace ++ lstrip l := h1
    _ = l.takeWhile isPySpace ++
          (pyStrip l ++ ((lstrip l).reverse.takeWhile isPySpace).reverse) := by rw [← h2]

/-- The output of the full sanitation step never contains a `<[^>]+>` match. -/
theorem hasTag_sanitize (l : List Char) : hasTag (sanitize l) = false := by
  obtain ⟨a, b, hab⟩ := pyStrip_decomp (removeTags l)
  have h1 : hasTag (removeTags l) = false := hasTag_removeTags l
  rw [hab] at h1
  exact hasTag_infix h1

theorem dropWhile_dropWhile (p : Char → Bool) (l : List Char) :
    List.dropWhile p (List.dropWhile p l) = List.dropWhile p l := by
  induction l with
  | nil => rfl
  | cons c rest ih =>
    by_cases hp : p c
    · rw [List.dropWhile_cons_of_pos hp]
      exact ih
    · rw [List.dropWhile_cons_of_neg hp, List.dropWhile_cons_of_neg hp]

theorem dropWhile_prefix_eq {p : Char → Bool} {u t : List Char}
    (h : List.dropWhile p (u ++ t) = u ++ t) : List.dropWhile p u = u := by
  cases u with
  | nil => rfl
  | cons c u' =>
    by_cases hp : p c
    · exfalso
      rw [List.cons_append, List.dropWhile_cons_of_pos hp] at h
      have hlen := congrArg List.length h
      have hle := (List.dropWhile_sublist (l := u' ++ t) p).length_le
      simp only [List.length_cons, List.length_append] at hlen hle
      omega
    · rw [List.dropWhile_cons_of_neg hp]

theorem lstrip_lstrip (l : List Char) : lstrip (lstrip l) = lstrip l :=
  dropWhile_dropWhile isPySpace l

theorem rstrip_rstrip (l : List Char) : rstrip (rstrip l) = rstrip l := by
  rw [rstrip, rstrip, List.reverse_reverse, dropWhile_dropWhile]

theorem rstrip_decomp (m : List Char) : ∃ b, m = rstrip m ++ b := by
  refine ⟨(m.reverse.takeWhile isPySpace).reverse, ?_⟩
  calc m = m.reverse.reverse := (List.reverse_reverse _).symm
    _ = (m.reverse.takeWhile isPySpace ++ m.reverse.dropWhile isPySpace).reverse := by
        rw [List.takeWhile_append_dropWhile]
    _ = (m.reverse.dropWhile isPySpace).reverse ++ (m.reverse.takeWhile isPySpace).reverse := by
        rw [List.reverse_append]
    _ = rstrip m ++ (m.reverse.takeWhile isPySpace).reverse := rfl

theorem lstrip_rstrip_lstrip (l : List Char) :
    lstrip (rstrip (lstrip l)) = rstrip (lstrip l) := by
  have hm : lstrip (lstrip l) = lstrip l := lstrip_lstrip l
  obtain ⟨b, hb⟩ := rstrip_decomp (lstrip l)
  rw [hb] at hm
  exact dropWhile_prefix_eq hm

theorem pyStrip_idem (l : List Char) : pyStrip (pyStrip l) = pyStrip l := by
  rw [pyStrip, pyStrip, lstrip_rstrip_lstrip, rstrip_rstrip]

theorem skipToGt_decomp : ∀ {l r : List Char}, skipToGt l = some r →
    ∃ w, l = w ++ ('>' :: r) ∧ '>' ∉ w := by
  intro l
  induction l with
  | nil => intro r h; simp [skipToGt] at h
  | cons c rest ih =>
    intro r h
    by_cases hc : c = '>'
    · subst hc
      rw [skipToGt, if_pos rfl] at h
      cases h
      exact ⟨[], rfl, by simp⟩
    · rw [skipToGt, if_neg hc] at h
      obtain ⟨w, hw, hnw⟩ := ih h
      refine ⟨c :: w, by rw [hw]; rfl, ?_⟩
      intro m
      rcases List.mem_cons.mp m with e | m2
      · exact hc e.symm
      · exact hnw m2

theorem skipToGt_over {w b : List Char} (h : '>' ∉ w) :
    skipToGt (w ++ ('>' :: b)) = some b := by
  induction w with
  | nil => rw [List.nil_append, skipToGt, if_pos rfl]
  | cons c w' ih =>
    have hc : ¬ c = '>' := fun e => h (e ▸ List.mem_cons_self c w')
    have hw' : '>' ∉ w' := fun m => h (List.mem_cons_of_mem c m)
    rw [List.cons_append, skipToGt, if_neg hc]
    exact ih hw'

/-- Semantic reading of the `hasTag` scanner: it holds exactly when the
list contains a substring `'<' :: w ++ ['>']` with `w` nonempty and free
of `'>'` — i.e. a substring matched by the regex `<[^>]+>`. -/
theorem hasTag_iff (l : List Char) : hasTag l = true ↔
    ∃ a w b, l = a ++ ('<' :: (w ++ ('>' :: b))) ∧ w ≠ [] ∧ '>' ∉ w := by
  constructor
  · intro h
    induction l with
    | nil => cases h
    | cons c rest ih =>
      by_cases hc : c = '<'
      · subst hc
        rw [hasTag_cons_lt] at h
        rcases Bool.or_eq_true_iff.mp h with hcan | hrest
        · rw [canTag] at hcan
          cases htt : tryTag rest with
          | none => rw [htt] at hcan; cases hcan
          | some r =>
            cases rest with
            | nil => simp [tryTag] at htt
            | cons d rest2 =>
              by_cases hd : d = '>'
              · rw [tryTag, if_pos hd] at htt; cases htt
              · rw [tryTag, if_neg hd] at htt
                obtain ⟨w2, hw2, hnw2⟩ := skipToGt_decomp htt
                refine ⟨[], d :: w2, r, ?_, by simp, ?_⟩
                · rw [List.nil_append, hw2]
                  rfl
                · intro m
                  rcases List.mem_cons.mp m with e | m2
                  · exact hd e.symm
                  · exact hnw2 m2
        · obtain ⟨a, w, b, hl, hw, hnw⟩ := ih hrest
          exact ⟨'<' :: a, w, b, by rw [hl]; rfl, hw, hnw⟩
      · rw [hasTag_cons_ne c rest hc] at h
        obtain ⟨a, w, b, hl, hw, hnw⟩ := ih h
        exact ⟨c :: a, w, b, by rw [hl]; rfl, hw, hnw⟩
  · rintro ⟨a, w, b, hl, hw, hnw⟩
    subst hl
    induction a with
    | nil =>
      rw [List.nil_append, hasTag_cons_lt]
      cases w with
      | nil => exact absurd rfl hw
      | cons d w' =>
        have hd : ¬ d = '>' := fun e => hnw (e ▸ List.mem_cons_self d w')
        have hw' : '>' ∉ w' := fun m => hnw (List.mem_cons_of_mem d m)
        have : canTag ((d :: w') ++ ('>' :: b)) = true := by
          rw [canTag, List.cons_append, tryTag, if_neg hd, skipToGt_over hw']
          rfl
        rw [this]
        rfl
    | cons x a' ih =>
      by_cases hx : x = '<'
      · subst hx
        rw [List.cons_append, hasTag_cons_lt, ih]
        simp
      · rw [List.cons_append, hasTag_cons_ne x _ hx]
        exact ih

theorem hasTag_append_no_lt {a m : List Char} (h : '<' ∉ a) :
    hasTag (a ++ m) = hasTag m := by
  induction a with
  | nil => rfl
  | cons c a' ih =>
    have hc : ¬ c = '<' := fun e => h (e ▸ List.mem_cons_self c a')
    have ha' : '<' ∉ a' := fun m2 => h (List.mem_cons_of_mem c m2)
    rw [List.cons_append, hasTag_cons_ne c _ hc]
    exact ih ha'

theorem chooseReply_chosenField (o : AiOutput) :
    chooseReply (some o) = (chosenField o).getD SAFE_DEFAULT_REPLY := by
  rw [chooseReply, chosenField]
  by_cases h1 : (o.is_technical.getD false && o.request_meeting.getD false) = true
  · rw [if_pos h1, if_pos h1]
  · rw [if_neg h1, if_neg h1]
    by_cases h2 : o.is_technical.getD false = true
    · rw [if_pos h2, if_pos h2]
    · rw [if_neg h2, if_neg h2]

theorem greetingOk_hello_append (m : List Char) :
    greetingOk (helloPrefix ++ m) = true := by
  have h : ("hello".toList).isPrefixOf ((helloPrefix ++ m).map Char.toLower) = true := by
    rw [List.isPrefixOf_iff_prefix]
    exact ⟨(',' :: '\n' :: '\n' :: []) ++ m.map Char.toLower, rfl⟩
  rw [greetingOk, greetings]
  simp only [List.any_cons, List.any_nil]
  rw [h]
  rfl

theorem greetingOk_ne_of_true {m : List Char} (h : greetingOk m = true) :
    m.isEmpty = false := by
  cases m with
  | nil => exact absurd h (by decide)
  | cons c r => rfl

/-- Claim C4: when the classification is absent (`None`), the selected
reply is exactly the literal safe-default string: the sanitation pass and
the greeting normalization leave it unchanged. -/
theorem c4_none_yields_safe_default : select_reply none = SAFE_DEFAULT_REPLY := by decide

/-- Claim C5: every output of `select_reply` is non-empty and its
lowercase form starts with one of `"hello"`, `"hi"`, `"dear"`,
`"thank you"` (the `greetingOk` predicate, the literal translation of
`reply.lower().startswith(("hello", "hi", "dear", "thank you"))`). -/
theorem c5_greeting_invariant (ai : Option AiOutput) :
    (select_reply ai).isEmpty = false ∧ greetingOk (select_reply ai) = true := by
  rw [select_reply, normalizeGreeting]
  cases hg : greetingOk (sanitize (chooseReply ai)) with
  | true =>
    rw [if_pos rfl]
    exact ⟨greetingOk_ne_of_true hg, hg⟩
  | false =>
    rw [if_neg (fun hh => Bool.noConfusion hh)]
    refine ⟨rfl, greetingOk_hello_append _⟩

/-- Claim C6: for every input classification, the final reply contains no
markup-tag-like substring `<...>`: the `hasTag` scanner (shown in
`hasTag_iff` to detect exactly the substrings `'<' :: w ++ ['>']` with `w`
nonempty and free of `'>'`) rejects every `select_reply` output. -/
theorem c6_no_markup_tags (ai : Option AiOutput) :
    hasTag (select_reply ai) = false := by
  rw [select_reply, normalizeGreeting]
  cases hg : greetingOk (sanitize (chooseReply ai)) with
  | true =>
    rw [if_pos rfl]
    exact hasTag_sanitize _
  | false =>
    rw [if_neg (fun hh => Bool.noConfusion hh), hasTag_append_no_lt (by decide)]
    exact hasTag_sanitize _

/-- Claim C7: the sanitation step (strip `<[^>]+>` matches, then trim
surrounding whitespace) is idempotent. -/
theorem c7_sanitize_idempotent (l : List Char) : sanitize (sanitize l) = sanitize l := by
  have h1 : hasTag (removeTags l) = false := hasTag_removeTags l
  obtain ⟨a, b, hab⟩ := pyStrip_decomp (removeTags l)
  have h2 : hasTag (pyStrip (removeTags l)) = false := by
    rw [hab] at h1
    exact hasTag_infix h1
  simp only [sanitize]
  rw [removeTags_of_hasTag_false h2, pyStrip_idem]

/-- Claim C1 counterexample (the shape of spec Scenario C): the classifier
marks the mail non-technical and returns an *empty* `non_technical_reply_draft`.
The claim says the safe default is sent; the code keeps the empty draft
(`dict.get` only defaults on a missing key), sanitizes it to `""` and
greeting-normalizes it, so the reply is `"Hello,\n\n"`, not the safe default. -/
theorem c1_counterexample :
    select_reply (some ⟨some false, none, some [], some false, none⟩) ≠ SAFE_DEFAULT_REPLY := by
  decide

/-- Claim C1 amended: only a *missing* chosen draft field falls back to the
safe-default reply; a chosen draft that is present but empty is kept,
sanitized to the empty string, and greeting-normalized, so the reply is
exactly `"Hello,\n\n"`. -/
theorem c1_amended (o : AiOutput) :
    (chosenField o = none → select_reply (some o) = SAFE_DEFAULT_REPLY) ∧
    (chosenField o = some [] → select_reply (some o) = helloPrefix) := by
  constructor
  · intro h
    rw [select_reply, chooseReply_chosenField, h]
    decide
  · intro h
    rw [select_reply, chooseReply_chosenField, h]
    decide

/-- Witness for `c1_amended` at concrete records: a record whose chosen
draft field is missing, and one whose chosen draft field is present but
empty. -/
theorem c1_witness :
    select_reply (some ⟨some false, none, none, none, none⟩) = SAFE_DEFAULT_REPLY ∧
    select_reply (some ⟨some false, none, some [], none, none⟩) = helloPrefix :=
  ⟨(c1_amended ⟨some false, none, none, none, none⟩).1 rfl,
   (c1_amended ⟨some false, none, some [], none, none⟩).2 rfl⟩

/-- Claim C3 counterexample: all five fields present, `is_technical` and
`request_meeting` true, non-empty `meeting_suggestion_draft`, yet
`select_reply` does not return the draft post-sanitation: the sanitized
draft does not start with a greeting token, so `"Hello,\n\n"` is prepended. -/
theorem c3_counterexample :
    select_reply (some ⟨some true, some ("ok".toList), some ("ok".toList),
        some true, some ("Got it.".toList)⟩) ≠ sanitize ("Got it.".toList) := by
  decide

/-- Claim C3 amended: in each of the three policy branches the selected
draft is returned *greeting-normalized after sanitation*: the sanitized
draft itself when it already starts (case-insensitively) with
hello/hi/dear/thank you, and otherwise `"Hello,\n\n"` prepended to it. -/
theorem c3_amended (sd nd md : List Char) (rm : Bool) :
    (md ≠ [] →
      select_reply (some ⟨some true, some sd, some nd, some true, some md⟩) =
        normalizeGreeting (sanitize md)) ∧
    (sd ≠ [] →
      select_reply (some ⟨some true, some sd, some nd, some false, some md⟩) =
        normalizeGreeting (sanitize sd)) ∧
    (nd ≠ [] →
      select_reply (some ⟨some false, some sd, some nd, some rm, some md⟩) =
        normalizeGreeting (sanitize nd)) :=
  ⟨fun _ => rfl, fun _ => rfl, fun _ => rfl⟩

/-- Witness for `c3_amended` at concrete non-empty drafts, one per branch. -/
theorem c3_witness :
    select_reply (some ⟨some true, some ("a".toList), some ("b".toList),
        some true, some ("c".toList)⟩) = normalizeGreeting (sanitize ("c".toList)) ∧
    select_reply (some ⟨some true, some ("a".toList), some ("b".toList),
        some false, some ("c".toList)⟩) = normalizeGreeting (sanitize ("a".toList)) ∧
    select_reply (some ⟨some false, some ("a".toList), some ("b".toList),
        some true, some ("c".toList)⟩) = normalizeGreeting (sanitize ("b".toList)) :=
  ⟨(c3_amended ("a".toList) ("b".toList) ("c".toList) true).1 (by decide),
   (c3_amended ("a".toList) ("b".toList) ("c".toList) true).2.1 (by decide),
   (c3_amended ("a".toList) ("b".toList) ("c".toList) true).2.2 (by decide)⟩

/-- Claim C9 counterexample: a message *is* fetched (the triple is present;
its `From` header merely yielded an empty extracted address), yet the run
makes zero send attempts, because `if not from_email: return` fires on the
empty string.  This falsifies "for every run in which a message is fetched,
exactly one send attempt is made". -/
theorem c9_counterexample :
    countSends (main_agent_workflow (some ([], ("s").toList, ("b").toList)) none) = 0 := rfl

/-- Claim C9 amended: a run with no fetched message performs no effect at
all; a run whose fetched message has a *non-empty* extracted sender address
performs exactly one classification and exactly one send attempt, whatever
the classifier outcome; a fetched message with an empty sender address is
treated like the no-message case and produces no send. -/
theorem c9_amended (f subject body : List Char) (ai : Option AiOutput) :
    main_agent_workflow none ai = [] ∧
    (f ≠ [] → countSends (main_agent_workflow (some (f, subject, body)) ai) = 1 ∧
      countClassifies (main_agent_workflow (some (f, subject, body)) ai) = 1) ∧
    countSends (main_agent_workflow (some ([], subject, body)) ai) = 0 := by
  refine ⟨rfl, fun hf => ?_, rfl⟩
  show countSends (if f = [] then [] else _) = 1 ∧ countClassifies (if f = [] then [] else _) = 1
  rw [if_neg hf]
  exact ⟨rfl, rfl⟩

/-- Witness for `c9_amended` at a concrete non-empty sender. -/
theorem c9_witness :
    main_agent_workflow none none = [] ∧
    (countSends (main_agent_workflow (some (("a").toList, ("s").toList, ("b").toList)) none) = 1 ∧
     countClassifies (main_agent_workflow (some (("a").toList, ("s").toList, ("b").toList)) none) = 1) ∧
    countSends (main_agent_workflow (some ([], ("s").toList, ("b").toList)) none) = 0 :=
  ⟨(c9_amended ("a".toList) ("s".toList) ("b".toList) none).1,
   (c9_amended ("a".toList) ("s".toList) ("b".toList) none).2.1 (by decide),
   (c9_amended ("a".toList) ("s".toList) ("b".toList) none).2.2⟩

/-- Claim C10: a fetched message whose extracted sender address is the
empty string is treated exactly like the no-message case: the run returns
early with no classification and no send. -/
theorem c10_empty_sender (subject body : List Char) (ai : Option AiOutput) :
    main_agent_workflow (some ([], subject, body)) ai = main_agent_workflow none ai ∧
    main_agent_workflow (some ([], subject, body)) ai = [] :=
  ⟨rfl, rfl⟩

theorem dropWhile_eq_cons_head {p : Char → Bool} :
    ∀ {l c r}, List.dropWhile p l = c :: r → p c = false := by
  intro l
  induction l with
  | nil => intro c r h; rw [List.dropWhile_nil] at h; cases h
  | cons x xs ih =>
    intro c r h
    by_cases hp : p x
    · rw [List.dropWhile_cons_of_pos hp] at h
      exact ih h
    · rw [List.dropWhile_cons_of_neg hp] at h
      injection h with h1 h2
      subst h1
      cases hpx : p x with
      | false => rfl
      | true => exact absurd hpx hp

theorem rdrop_decomp (q : Char → Bool) (m : List Char) :
    m = (m.reverse.dropWhile q).reverse ++ (m.reverse.takeWhile q).reverse := by
  calc m = m.reverse.reverse := (List.reverse_reverse m).symm
    _ = (m.reverse.takeWhile q ++ m.reverse.dropWhile q).reverse := by
        rw [List.takeWhile_append_dropWhile]
    _ = (m.reverse.dropWhile q).reverse ++ (m.reverse.takeWhile q).reverse := by
        rw [List.reverse_append]

/-- Characterization of the brace extraction: it returns `t` exactly when
the input splits as `a ++ t ++ b` with no `'{'` in `a` (so `t` starts at
the *first* opening brace), no `'}'` in `b` (so `t` ends at the *last*
closing brace), and `t` itself brace-delimited. -/
theorem extractBraced_eq_some_iff (m t : List Char) :
    extractBraced m = some t ↔
      ∃ a b, m = a ++ (t ++ b) ∧ (∀ c ∈ a, c ≠ '{') ∧ (∀ c ∈ b, c ≠ '}') ∧
        (∃ u, t = '{' :: u) ∧ (∃ w, t = w ++ ['}']) := by
  constructor
  · intro h
    simp only [extractBraced] at h
    cases hemp : (((m.dropWhile notLb).reverse.dropWhile notRb).reverse).isEmpty with
    | true => rw [if_pos hemp] at h; cases h
    | false =>
      rw [if_neg (by rw [hemp]; exact Bool.false_ne_true)] at h
      cases h
      refine ⟨m.takeWhile notLb, ((m.dropWhile notLb).reverse.takeWhile notRb).reverse,
        ?_, ?_, ?_, ?_, ?_⟩
      · calc m = m.takeWhile notLb ++ m.dropWhile notLb := by
              rw [List.takeWhile_append_dropWhile]
          _ = m.takeWhile notLb ++
                (((m.dropWhile notLb).reverse.dropWhile notRb).reverse ++
                 ((m.dropWhile notLb).reverse.takeWhile notRb).reverse) := by
              rw [← rdrop_decomp notRb (m.dropWhile notLb)]
      · intro c hc
        have hp := List.mem_takeWhile_imp hc
        rw [notLb, Bool.not_eq_true'] at hp
        exact beq_eq_false_iff_ne.mp hp
      · intro c hc
        have hc2 : c ∈ (m.dropWhile notLb).reverse.takeWhile notRb :=
          List.mem_reverse.mp hc
        have hp := List.mem_takeWhile_imp hc2
        rw [notRb, Bool.not_eq_true'] at hp
        exact beq_eq_false_iff_ne.mp hp
      · cases ht2 : ((m.dropWhile notLb).reverse.dropWhile notRb).reverse with
        | nil => rw [ht2] at hemp; cases hemp
        | cons c2 u =>
          refine ⟨u, ?_⟩
          have hdec := rdrop_decomp notRb (m.dropWhile notLb)
          rw [ht2, List.cons_append] at hdec
          have hc2 := dropWhile_eq_cons_head hdec
          rw [notLb, Bool.not_eq_false'] at hc2
          rw [eq_of_beq hc2]
      · cases hd : (m.dropWhile notLb).reverse.dropWhile notRb with
        | nil => rw [hd] at hemp; cases hemp
        | cons d r2 =>
          have hdd := dropWhile_eq_cons_head hd
          rw [notRb, Bool.not_eq_false'] at hdd
          refine ⟨r2.reverse, ?_⟩
          rw [eq_of_beq hdd, List.reverse_cons]
  · rintro ⟨a, b, hm, ha, hb, ⟨u, hu⟩, ⟨w, hw⟩⟩
    have hpa : ∀ c ∈ a, notLb c = true := by
      intro c hc
      rw [notLb, Bool.not_eq_true', beq_eq_false_iff_ne]
      exact ha c hc
    have h1 : m.dropWhile notLb = t ++ b := by
      rw [hm, List.dropWhile_append_of_pos hpa, hu, List.cons_append,
        List.dropWhile_cons_of_neg (by rw [notLb]; simp)]
    have hqb : ∀ c ∈ b.reverse, notRb c = true := by
      intro c hc
      rw [notRb, Bool.not_eq_true', beq_eq_false_iff_ne]
      exact hb c (List.mem_reverse.mp hc)
    have h2 : (m.dropWhile notLb).reverse.dropWhile notRb = t.reverse := by
      rw [h1, List.reverse_append, List.dropWhile_append_of_pos hqb, hw,
        List.reverse_append]
      show List.dropWhile notRb ('}' :: w.reverse) = _
      rw [List.dropWhile_cons_of_neg (by rw [notRb]; simp), List.reverse_singleton]
      rfl
    simp only [extractBraced]
    rw [h2, List.reverse_reverse]
    rw [if_neg (by rw [hu]; simp)]

/-- Claim C2 counterexample: on a response whose decoded JSON object has
only `is_technical` (four required fields missing), `_run_ai_agent` does
*not* return `None`: it returns the partial record unchanged — there is no
field validation after `json.loads`. -/
theorem c2_counterexample :
    returnsPartialOn (("\x7b\"is_technical\": true\x7d").toList) = true := rfl

/-- Claim C2 amended: `_run_ai_agent` applies no field validation: whenever
the braced substring of the stripped response decodes, the decoded object
is returned as is, even when it is missing required fields; `None` arises
only from a missing braced substring or a decode failure. -/
theorem c2_amended (raw t : List Char) (j : JsonValue)
    (h1 : extractBraced (pyStrip raw) = some t)
    (h2 : jsonParse t = some j)
    (_h3 : hasRequired j = false) :
    _run_ai_agent raw = some j := by
  show (extractBraced (pyStrip raw)).bind jsonParse = some j
  rw [h1]
  exact h2

/-- Witness for `c2_amended`: the concrete partial record of
`c2_counterexample` is returned by the classifier. -/
theorem c2_witness :
    _run_ai_agent (("\x7b\"is_technical\": true\x7d").toList) =
      some (JsonValue.obj [(("is_technical").toList, JsonValue.bool true)]) :=
  c2_amended (("\x7b\"is_technical\": true\x7d").toList)
    (("\x7b\"is_technical\": true\x7d").toList)
    (JsonValue.obj [(("is_technical").toList, JsonValue.bool true)]) rfl rfl rfl

/-- Claim C8 counterexample: on `x{"a": 1} y}` (braces spelled out), the
spec's contract — decode the *first well-formed JSON object substring*,
tolerating trailing commentary — succeeds (`specParse` finds `{"a": 1}`),
but the code's regex takes the span from the first `{` to the *last* `}`
(`{"a": 1} y}`), `json.loads` fails on it, and `_run_ai_agent` returns
`None`. -/
theorem c8_counterexample :
    _run_ai_agent (("x\x7b\"a\": 1\x7d y\x7d").toList) = none ∧
    (specParse (("x\x7b\"a\": 1\x7d y\x7d").toList)).isSome = true :=
  ⟨rfl, rfl⟩

/-- Claim C8 amended: the parsing step extracts the substring of the
stripped response running from its *first* opening brace to the *last*
closing brace (commentary before and after is tolerated, but may not
contain braces on the respective side) and decodes that substring;
the result is `None` exactly when no such substring exists or decoding
fails. -/
theorem c8_amended (raw : List Char) (v : JsonValue) :
    _run_ai_agent raw = some v ↔
      ∃ a t b, pyStrip raw = a ++ (t ++ b) ∧ (∀ c ∈ a, c ≠ '{') ∧ (∀ c ∈ b, c ≠ '}') ∧
        (∃ u, t = '{' :: u) ∧ (∃ w, t = w ++ ['}']) ∧ jsonParse t = some v := by
  constructor
  · intro h
    cases he : extractBraced (pyStrip raw) with
    | none =>
      exfalso
      have h2 : (extractBraced (pyStrip raw)).bind jsonParse = some v := h
      rw [he] at h2
      cases h2
    | some t =>
      have h2 : (extractBraced (pyStrip raw)).bind jsonParse = some v := h
      rw [he] at h2
      have h3 : jsonParse t = some v := h2
      obtain ⟨a, b, hm, ha, hb, hu, hw⟩ := (extractBraced_eq_some_iff _ _).mp he
      exact ⟨a, t, b, hm, ha, hb, hu, hw, h3⟩
  · rintro ⟨a, t, b, hm, ha, hb, hu, hw, hj⟩
    have he : extractBraced (pyStrip raw) = some t :=
      (extractBraced_eq_some_iff _ _).mpr ⟨a, b, hm, ha, hb, hu, hw⟩
    show (extractBraced (pyStrip raw)).bind jsonParse = some v
    rw [he]
    exact hj

end EmailAgent
